import Mathlib

/-!
Shallow embedding of the Fibonacci action server
(`src/cpp/actions_example_cpp/src/fib_server.cpp`).

The server consists of three handler routines and a worker:

* `FibonacciComputer::handle_goal`  — admission: reject iff `order > 20`,
  otherwise `ACCEPT_AND_EXECUTE` (execution starts immediately).
* `FibonacciComputer::handle_cancel` — cancellation: reject iff `order < 10`,
  otherwise accept (advisory: a flag is raised, the worker polls it).
* `FibonacciComputer::compute` — the per-goal worker: abort on `order == 0`,
  otherwise seed the sequence with `[0, 1]` and loop
  `for (i = 1; (i < order) && rclcpp::ok(); i++)`, each iteration first
  checking `is_canceling()` (terminating with `canceled(sequence)` if set),
  then pushing `sequence[i] + sequence[i-1]`, then publishing feedback with
  the current partial sequence; after the loop, `succeed(sequence)` is
  invoked only if `rclcpp::ok()` still holds.

The worker is modelled as a function producing the list of messages emitted
for the goal (feedback snapshots and the terminal operation).  The external
environment is modelled by two Boolean streams indexed by the loop step:
`canceling i` is the value the `is_canceling()` query returns at step `i`,
and `ok i` is the value the `rclcpp::ok()` liveness query returns at step
`i`.  `rclcpp::ok()` is monotone in real executions (shutdown is permanent),
so the liveness queries a single step performs agree and one value per step
is faithful.  The `for` loop counting `i` upward while `i < order` is
rendered as structural recursion on the number of remaining iterations
`(order - i).toNat`, with the live index `i` carried alongside.

Sequence elements are mathematical integers: every executed goal has
`order ≤ 20` (admission) and the largest value ever stored is `fib 20 =
6765`, far below the `int` bound, so machine overflow cannot occur on any
reachable input.
-/

namespace FibServer

/-- Admission decision codes, from `rclcpp_action::GoalResponse`. -/
inductive GoalResponse
  | reject
  | acceptAndExecute
deriving DecidableEq, Repr

/-- Cancellation decision codes, from `rclcpp_action::CancelResponse`. -/
inductive CancelResponse
  | reject
  | accept
deriving DecidableEq, Repr

/-- `FibonacciComputer::handle_goal`: reject requests with `order > 20`,
accept all others with immediate execution. -/
def handle_goal (order : Int) : GoalResponse :=
  if order > 20 then GoalResponse.reject else GoalResponse.acceptAndExecute

/-- `FibonacciComputer::handle_cancel`: reject cancellation of goals with
`order < 10`, accept all others (the middleware then raises the flag the
worker polls). -/
def handle_cancel (order : Int) : CancelResponse :=
  if order < 10 then CancelResponse.reject else CancelResponse.accept

/-- One message emitted for a goal: a feedback snapshot of the partial
sequence, or one of the three terminal operations carrying the result
sequence (`abort` is called with the default, empty result). -/
inductive Event
  | feedback (s : List Int)
  | succeeded (s : List Int)
  | canceled (s : List Int)
  | aborted (s : List Int)
deriving DecidableEq, Repr

/-- Whether an event is one of the three terminal operations. -/
def isTerminal : Event → Bool
  | Event.feedback _ => false
  | _ => true

/-- One loop iteration's sequence update:
`sequence.push_back(sequence[i] + sequence[i - 1])`. -/
def fibStep (seq : List Int) (i : Nat) : List Int :=
  seq ++ [seq.getD i 0 + seq.getD (i - 1) 0]

/-- The computation loop of `FibonacciComputer::compute`.  `i` is the live
loop index, the final `Nat` argument the number of remaining iterations
(`(order - i).toNat`, zero when `i < order` fails and the loop exits).
While iterations remain, the iteration at index `i` runs only if the
liveness query holds (`(i < order) && rclcpp::ok()`); it first polls the
cancellation flag and terminates with `canceled`, else pushes the next
element and publishes feedback.  When the loop exits normally, `succeed`
is invoked under a final liveness check. -/
def computeLoop (ok canceling : Nat → Bool) : Nat → List Int → Nat → List Event
  | i, seq, 0 =>
      if ok i then [Event.succeeded seq] else []
  | i, seq, r + 1 =>
      if ok i then
        if canceling i then [Event.canceled seq]
        else Event.feedback (fibStep seq i) ::
          computeLoop ok canceling (i + 1) (fibStep seq i) r
      else []

/-- `FibonacciComputer::compute`: refuse `order == 0` by aborting with the
default (empty) result, otherwise seed `[0, 1]` and run the loop from
`i = 1` with `order - 1` planned iterations. -/
def compute (ok canceling : Nat → Bool) (order : Int) : List Event :=
  if order = 0 then [Event.aborted []]
  else computeLoop ok canceling 1 [0, 1] (order - 1).toNat

/-- Whether some `rclcpp::ok()` query performed during `computeLoop`
returned `false` (same control flow as `computeLoop`, observing the
queries instead of the messages). -/
def computeLoopDown (ok canceling : Nat → Bool) : Nat → Nat → Bool
  | i, 0 => !(ok i)
  | i, r + 1 =>
      if ok i then
        if canceling i then false
        else computeLoopDown ok canceling (i + 1) r
      else true

/-- Whether some liveness query performed during `compute` returned
`false` (the `order == 0` path performs none). -/
def computeSawDown (ok canceling : Nat → Bool) (order : Int) : Bool :=
  if order = 0 then false else computeLoopDown ok canceling 1 (order - 1).toNat

/-- A permanently live substrate: every `rclcpp::ok()` query returns true. -/
def alwaysLive : Nat → Bool := fun _ => true

/-- A run on which no cancellation flag is ever observed set. -/
def noCancel : Nat → Bool := fun _ => false

/-- The reference sequence: `fibSeq k` is the sequence held after `k`
completed loop iterations, i.e. the seed `[0, 1]` extended `k` times by
`fibStep` at indices `1, …, k`. -/
def fibSeq : Nat → List Int
  | 0 => [0, 1]
  | k + 1 => fibStep (fibSeq k) (k + 1)

@[simp] theorem alwaysLive_eq (i : Nat) : alwaysLive i = true := rfl

@[simp] theorem noCancel_eq (i : Nat) : noCancel i = false := rfl

theorem fibSeq_length (k : Nat) : (fibSeq k).length = k + 2 := by
  induction k with
  | zero => rfl
  | succ k ih => simp [fibSeq, fibStep, ih]

theorem fibStep_fibSeq (i : Nat) (hi : 1 ≤ i) :
    fibStep (fibSeq (i - 1)) i = fibSeq i := by
  obtain ⟨j, rfl⟩ : ∃ j, i = j + 1 := ⟨i - 1, by omega⟩
  simp [fibSeq]

theorem loop_ok_trace (r : Nat) : ∀ i : Nat, 1 ≤ i →
    computeLoop alwaysLive noCancel i (fibSeq (i - 1)) r =
      (List.range r).map (fun k => Event.feedback (fibSeq (i + k))) ++
        [Event.succeeded (fibSeq (i - 1 + r))] := by
  induction r with
  | zero =>
      intro i hi
      simp [computeLoop, alwaysLive]
  | succ r ih =>
      intro i hi
      rw [computeLoop]
      simp only [alwaysLive_eq, noCancel_eq, if_true, if_false,
        Bool.false_eq_true, ite_false, ite_true]
      rw [fibStep_fibSeq i hi]
      have h1 : (i + 1) - 1 = i := by omega
      have h2 := ih (i + 1) (by omega)
      rw [h1] at h2
      rw [h2]
      rw [List.range_succ_eq_map, List.map_cons, List.map_map]
      have h3 : i - 1 + (r + 1) = i + r := by omega
      rw [h3]
      have h4 : ((fun k => Event.feedback (fibSeq (i + k))) ∘ Nat.succ)
          = fun k => Event.feedback (fibSeq (i + 1 + k)) := by
        funext k
        show Event.feedback (fibSeq (i + Nat.succ k))
          = Event.feedback (fibSeq (i + 1 + k))
        have hk : i + Nat.succ k = i + 1 + k := by omega
        rw [hk]
      rw [h4]
      simp

theorem singleton_decomp {α : Type} (x e : α) (pre post : List α)
    (h : [x] = pre ++ e :: post) : post = [] := by
  have hlen := congrArg List.length h
  simp [List.length_append] at hlen
  have hp : post.length = 0 := by omega
  exact List.length_eq_zero.mp hp

theorem loop_cancel_trace (r : Nat) : ∀ i k : Nat, 1 ≤ i → i ≤ k + 1 →
    k + 2 ≤ i + r →
    computeLoop alwaysLive (fun j => decide (k + 1 ≤ j)) i (fibSeq (i - 1)) r =
      (List.range (k + 1 - i)).map (fun j => Event.feedback (fibSeq (i + j))) ++
        [Event.canceled (fibSeq k)] := by
  induction r with
  | zero =>
      intro i k hi hik hkr
      omega
  | succ r ih =>
      intro i k hi hik hkr
      rw [computeLoop]
      simp only [alwaysLive_eq, ite_true, if_true]
      by_cases hc : k + 1 ≤ i
      · have hik2 : i = k + 1 := by omega
        have hd : decide (k + 1 ≤ i) = true := decide_eq_true hc
        simp only [hd, ite_true]
        subst hik2
        simp
      · have hd : decide (k + 1 ≤ i) = false := decide_eq_false hc
        simp only [hd, Bool.false_eq_true, ite_false]
        rw [fibStep_fibSeq i hi]
        have h1 : (i + 1) - 1 = i := by omega
        have h2 := ih (i + 1) k (by omega) (by omega) (by omega)
        rw [h1] at h2
        rw [h2]
        have h3 : k + 1 - i = (k - i) + 1 := by omega
        have h4 : k + 1 - (i + 1) = k - i := by omega
        rw [h3, h4, List.range_succ_eq_map, List.map_cons, List.map_map]
        have h5 : ((fun j => Event.feedback (fibSeq (i + j))) ∘ Nat.succ)
            = fun j => Event.feedback (fibSeq (i + 1 + j)) := by
          funext j
          show Event.feedback (fibSeq (i + Nat.succ j))
            = Event.feedback (fibSeq (i + 1 + j))
          have hj : i + Nat.succ j = i + 1 + j := by omega
          rw [hj]
        rw [h5]
        simp

theorem loop_no_cancel_no_canceled (r : Nat) :
    ∀ (ok : Nat → Bool) (i : Nat) (seq s : List Int),
      Event.canceled s ∉ computeLoop ok noCancel i seq r := by
  induction r with
  | zero =>
      intro ok i seq s
      rw [computeLoop]
      by_cases h : ok i = true <;> simp [h]
  | succ r ih =>
      intro ok i seq s
      rw [computeLoop]
      by_cases h : ok i = true
      · simp only [h, ite_true, noCancel_eq, Bool.false_eq_true, ite_false]
        intro hmem
        rcases List.mem_cons.mp hmem with h1 | h1
        · exact Event.noConfusion h1
        · exact ih ok (i + 1) (fibStep seq i) s h1
      · simp [h]

theorem loop_terminal_last (r : Nat) :
    ∀ (ok canceling : Nat → Bool) (i : Nat) (seq : List Int),
      (computeLoop ok canceling i seq r).countP isTerminal ≤ 1 ∧
      ∀ pre e post, computeLoop ok canceling i seq r = pre ++ e :: post →
        isTerminal e = true → post = [] := by
  induction r with
  | zero =>
      intro ok canceling i seq
      rw [computeLoop]
      by_cases h : ok i = true
      · simp only [h, ite_true]
        refine ⟨by simp [List.countP_cons, List.countP_nil, isTerminal], ?_⟩
        intro pre e post heq _
        exact singleton_decomp _ e pre post heq
      · rw [Bool.not_eq_true] at h
        simp only [h, Bool.false_eq_true, ite_false]
        refine ⟨by simp, ?_⟩
        intro pre e post heq _
        have hlen := congrArg List.length heq
        rw [List.length_append, List.length_cons] at hlen
        simp only [List.length_nil] at hlen
        omega
  | succ r ih =>
      intro ok canceling i seq
      rw [computeLoop]
      by_cases h : ok i = true
      · simp only [h, ite_true]
        by_cases hc : canceling i = true
        · simp only [hc, ite_true]
          refine ⟨by simp [List.countP_cons, List.countP_nil, isTerminal], ?_⟩
          intro pre e post heq _
          exact singleton_decomp _ e pre post heq
        · rw [Bool.not_eq_true] at hc
          simp only [hc, Bool.false_eq_true, ite_false]
          obtain ⟨ihc, ihl⟩ := ih ok canceling (i + 1) (fibStep seq i)
          refine ⟨?_, ?_⟩
          · rw [List.countP_cons]
            simpa [isTerminal] using ihc
          · intro pre e post heq hterm
            cases pre with
            | nil =>
                rw [List.nil_append] at heq
                injection heq with he hp
                rw [← he] at hterm
                simp [isTerminal] at hterm
            | cons a as =>
                rw [List.cons_append] at heq
                injection heq with ha hp
                exact ihl as e post hp hterm
      · rw [Bool.not_eq_true] at h
        simp only [h, Bool.false_eq_true, ite_false]
        refine ⟨by simp, ?_⟩
        intro pre e post heq _
        have hlen := congrArg List.length heq
        rw [List.length_append, List.length_cons] at hlen
        simp only [List.length_nil] at hlen
        omega

theorem loop_down_spec (r : Nat) :
    ∀ (ok canceling : Nat → Bool) (i : Nat) (seq : List Int),
      (computeLoopDown ok canceling i r = true →
        ∀ e ∈ computeLoop ok canceling i seq r, isTerminal e = false) ∧
      (computeLoopDown ok canceling i r = false →
        ∃ pre e, computeLoop ok canceling i seq r = pre ++ [e] ∧
          isTerminal e = true) := by
  induction r with
  | zero =>
      intro ok canceling i seq
      rw [computeLoop, computeLoopDown]
      by_cases h : ok i = true
      · simp only [h, ite_true, Bool.not_true]
        constructor
        · intro hfalse
          simp at hfalse
        · intro _
          exact ⟨[], Event.succeeded seq, by simp, rfl⟩
      · rw [Bool.not_eq_true] at h
        simp only [h, Bool.not_false, Bool.false_eq_true, ite_false]
        constructor
        · intro _ e he
          simp at he
        · intro hfalse
          simp at hfalse
  | succ r ih =>
      intro ok canceling i seq
      rw [computeLoop, computeLoopDown]
      by_cases h : ok i = true
      · simp only [h, ite_true]
        by_cases hc : canceling i = true
        · simp only [hc, ite_true]
          constructor
          · intro hfalse
            simp at hfalse
          · intro _
            exact ⟨[], Event.canceled seq, by simp, rfl⟩
        · rw [Bool.not_eq_true] at hc
          simp only [hc, Bool.false_eq_true, ite_false]
          obtain ⟨ih1, ih2⟩ := ih ok canceling (i + 1) (fibStep seq i)
          constructor
          · intro hdown e he
            rcases List.mem_cons.mp he with h1 | h1
            · rw [h1]; rfl
            · exact ih1 hdown e h1
          · intro hdown
            obtain ⟨pre, e, heq, hterm⟩ := ih2 hdown
            refine ⟨Event.feedback (fibStep seq i) :: pre, e, ?_, hterm⟩
            rw [heq, List.cons_append]
      · rw [Bool.not_eq_true] at h
        simp only [h, Bool.false_eq_true, ite_false]
        constructor
        · intro _ e he
          simp at he
        · intro hfalse
          simp at hfalse

/-- C1 (claim as stated is false): for order 5 with the substrate live and no
cancellation, the final result sequence is `[0,1,1,2,3,5]`, not `[0,1,1,2,3]`,
and the emitted trace is not three feedbacks followed by
`SUCCEEDED [0,1,1,2,3]`. -/
theorem fib_C1_counterexample :
    Event.succeeded [0, 1, 1, 2, 3] ∉ compute alwaysLive noCancel 5 ∧
    compute alwaysLive noCancel 5 ≠
      [Event.feedback [0, 1, 1], Event.feedback [0, 1, 1, 2],
       Event.feedback [0, 1, 1, 2, 3], Event.succeeded [0, 1, 1, 2, 3]] := by
  decide

/-- C1 (amended): for order 5 with the substrate live and no cancellation,
the executor emits feedback in strict order with partial sequences
`[0,1,1]`, `[0,1,1,2]`, `[0,1,1,2,3]`, `[0,1,1,2,3,5]` and terminates
SUCCEEDED with result `[0,1,1,2,3,5]`; the sequence grows by one element
per step until its length equals order + 1. -/
theorem fib_C1_order5_trace :
    compute alwaysLive noCancel 5 =
      [Event.feedback [0, 1, 1], Event.feedback [0, 1, 1, 2],
       Event.feedback [0, 1, 1, 2, 3], Event.feedback [0, 1, 1, 2, 3, 5],
       Event.succeeded [0, 1, 1, 2, 3, 5]] ∧
    (fibSeq 4).length = 5 + 1 := by
  decide

/-- C2: for every goal with order ≥ 2 run without cancellation and with the
substrate live, the loop runs step index i from 1 to order − 1, at step i
appending `sequence[i] + sequence[i-1]` to the sequence seeded `[0, 1]`
(`fibSeq` iterates exactly that update) and emitting exactly one feedback
snapshot per step, producing order − 1 elements beyond the seed. -/
theorem fib_C2_loop (order : Int) (h2 : 2 ≤ order) :
    compute alwaysLive noCancel order =
      (List.range (order - 1).toNat).map
          (fun k => Event.feedback (fibSeq (1 + k))) ++
        [Event.succeeded (fibSeq (order - 1).toNat)] ∧
    (fibSeq (order - 1).toNat).length = 2 + (order - 1).toNat := by
  constructor
  · rw [compute, if_neg (by omega : ¬order = 0)]
    have h := loop_ok_trace (order - 1).toNat 1 (le_refl 1)
    simpa [fibSeq] using h
  · rw [fibSeq_length]
    omega

theorem fib_C2_loop_witness :
    compute alwaysLive noCancel 5 =
      (List.range ((5 : Int) - 1).toNat).map
          (fun k => Event.feedback (fibSeq (1 + k))) ++
        [Event.succeeded (fibSeq ((5 : Int) - 1).toNat)] ∧
    (fibSeq ((5 : Int) - 1).toNat).length = 2 + ((5 : Int) - 1).toNat :=
  fib_C2_loop 5 (by decide)

/-- C3: the admission decision rejects a goal if and only if its order
exceeds 20; every order in [0, 20] is accepted with immediate execution,
and the decision is a pure function of the request. -/
theorem fib_C3_admission (order : Int) :
    (handle_goal order = GoalResponse.reject ↔ 20 < order) ∧
    (0 ≤ order → order ≤ 20 →
      handle_goal order = GoalResponse.acceptAndExecute) := by
  unfold handle_goal
  constructor
  · by_cases h : 20 < order <;> simp [h]
  · intro h0 h20
    rw [if_neg (by omega)]

theorem fib_C3_admission_witness :
    handle_goal 21 = GoalResponse.reject ∧
    handle_goal 20 = GoalResponse.acceptAndExecute :=
  ⟨(fib_C3_admission 21).1.mpr (by decide),
   (fib_C3_admission 20).2 (by decide) (by decide)⟩

/-- C4: for a goal of order ≥ 10 whose cancellation flag is observed set at
the step boundary after k completed steps (the boundary exists when
k + 1 < order), the worker emits exactly the k feedback snapshots of the
completed steps, then terminates CANCELED with the sequence accumulated so
far, of length k + 2, with no further steps and no further feedback. -/
theorem fib_C4_cancel (order : Int) (k : Nat) (h10 : 10 ≤ order)
    (hk : (k : Int) + 1 < order) :
    compute alwaysLive (fun j => decide (k + 1 ≤ j)) order =
      (List.range k).map (fun j => Event.feedback (fibSeq (1 + j))) ++
        [Event.canceled (fibSeq k)] ∧
    (fibSeq k).length = k + 2 := by
  constructor
  · rw [compute, if_neg (by omega : ¬order = 0)]
    have h := loop_cancel_trace (order - 1).toNat 1 k (le_refl 1)
      (by omega) (by omega)
    simpa [fibSeq] using h
  · exact fibSeq_length k

theorem fib_C4_cancel_witness :
    compute alwaysLive (fun j => decide (3 + 1 ≤ j)) 10 =
      (List.range 3).map (fun j => Event.feedback (fibSeq (1 + j))) ++
        [Event.canceled (fibSeq 3)] ∧
    (fibSeq 3).length = 3 + 2 :=
  fib_C4_cancel 10 3 (by decide) (by decide)

/-- C5: the cancellation decision rejects if and only if the goal's order
is below 10 (and accepts iff order ≥ 10); cancellation is purely advisory:
a run on which the flag is never observed set produces no CANCELED event,
so a rejected cancellation leaves execution unaffected. -/
theorem fib_C5_cancel_policy (order : Int) :
    (handle_cancel order = CancelResponse.reject ↔ order < 10) ∧
    (handle_cancel order = CancelResponse.accept ↔ 10 ≤ order) ∧
    (∀ c : Nat → Bool, (∀ i, c i = false) → ∀ s : List Int,
      Event.canceled s ∉ compute alwaysLive c order) := by
  refine ⟨?_, ?_, ?_⟩
  · unfold handle_cancel
    by_cases h : order < 10 <;> simp [h]
  · unfold handle_cancel
    by_cases h : order < 10
    · simp [h]
    · simp [h]
      omega
  · intro c hc s
    have hceq : c = noCancel := funext fun i => hc i
    rw [hceq, compute]
    by_cases h0 : order = 0
    · simp [h0]
    · rw [if_neg h0]
      exact loop_no_cancel_no_canceled _ alwaysLive 1 [0, 1] s

theorem fib_C5_cancel_policy_witness :
    handle_cancel 9 = CancelResponse.reject ∧
    Event.canceled [] ∉ compute alwaysLive noCancel 9 :=
  ⟨(fib_C5_cancel_policy 9).1.mpr (by decide),
   (fib_C5_cancel_policy 9).2.2 noCancel (fun _ => rfl) []⟩

/-- C6: on every run, at most one terminal operation appears in a goal's
message trace, and whenever a terminal event occurs it is the last message
emitted: nothing (in particular no feedback) follows it. -/
theorem fib_C6_terminal_unique (ok c : Nat → Bool) (order : Int) :
    (compute ok c order).countP isTerminal ≤ 1 ∧
    ∀ pre e post, compute ok c order = pre ++ e :: post →
      isTerminal e = true → post = [] := by
  rw [compute]
  by_cases h0 : order = 0
  · rw [if_pos h0]
    refine ⟨by simp [List.countP_cons, List.countP_nil, isTerminal], ?_⟩
    intro pre e post heq _
    exact singleton_decomp _ e pre post heq
  · rw [if_neg h0]
    exact loop_terminal_last _ ok c 1 [0, 1]

theorem fib_C6_terminal_unique_witness :
    (compute alwaysLive noCancel 2).countP isTerminal ≤ 1 ∧
    ([] : List Event) = [] :=
  ⟨(fib_C6_terminal_unique alwaysLive noCancel 2).1,
   (fib_C6_terminal_unique alwaysLive noCancel 2).2 [Event.feedback [0, 1, 1]]
     (Event.succeeded [0, 1, 1]) [] (by decide) (by decide)⟩

/-- C7: for a goal of order 0 the worker transitions directly to ABORTED
with the default empty result, emitting zero feedback messages, on every
environment (the abort path consults neither liveness nor cancellation). -/
theorem fib_C7_order0_abort (ok c : Nat → Bool) :
    compute ok c 0 = [Event.aborted []] := rfl

/-- C8: a goal of order 1 is accepted by the admission gate and, with the
substrate live, the loop performs zero iterations and the goal terminates
immediately SUCCEEDED with result `[0, 1]` and zero feedback messages,
whatever the cancellation flag does. -/
theorem fib_C8_order1 :
    handle_goal 1 = GoalResponse.acceptAndExecute ∧
    ∀ c : Nat → Bool, compute alwaysLive c 1 = [Event.succeeded [0, 1]] := by
  constructor
  · decide
  · intro c
    rfl

/-- C9: if some liveness query performed during a run returned false, the
worker abandons the goal silently: every emitted message is a feedback
snapshot and no terminal operation is invoked; conversely, if every
performed liveness query returned true, the run ends with a terminal
operation as its last message — abandonment on substrate shutdown is the
only way an admitted goal misses a terminal status. -/
theorem fib_C9_shutdown (ok c : Nat → Bool) (order : Int) :
    (computeSawDown ok c order = true →
      ∀ e ∈ compute ok c order, isTerminal e = false) ∧
    (computeSawDown ok c order = false →
      ∃ pre e, compute ok c order = pre ++ [e] ∧ isTerminal e = true) := by
  rw [compute, computeSawDown]
  by_cases h0 : order = 0
  · rw [if_pos h0, if_pos h0]
    constructor
    · intro hfalse
      simp at hfalse
    · intro _
      exact ⟨[], Event.aborted [], by simp, rfl⟩
  · rw [if_neg h0, if_neg h0]
    exact loop_down_spec _ ok c 1 [0, 1]

theorem fib_C9_shutdown_witness :
    isTerminal (Event.feedback [0, 1, 1]) = false :=
  (fib_C9_shutdown (fun t => decide (t < 2)) noCancel 5).1 (by decide)
    (Event.feedback [0, 1, 1]) (by decide)

/-- C10: every goal of negative order is accepted by the admission gate
(only order > 20 is rejected), is not aborted (only order 0 aborts), and
with the substrate live runs zero loop iterations, terminating SUCCEEDED
with result `[0, 1]` and zero feedback — exactly like order 1. -/
theorem fib_C10_negative_order (order : Int) (hneg : order < 0) :
    handle_goal order = GoalResponse.acceptAndExecute ∧
    ∀ c : Nat → Bool, compute alwaysLive c order = [Event.succeeded [0, 1]] := by
  constructor
  · unfold handle_goal
    rw [if_neg (by omega)]
  · intro c
    rw [compute, if_neg (by omega)]
    have hr : (order - 1).toNat = 0 := by omega
    rw [hr]
    rfl

theorem fib_C10_negative_order_witness :
    handle_goal (-3) = GoalResponse.acceptAndExecute ∧
    compute alwaysLive noCancel (-3) = [Event.succeeded [0, 1]] :=
  ⟨(fib_C10_negative_order (-3) (by decide)).1,
   (fib_C10_negative_order (-3) (by decide)).2 noCancel⟩

end FibServer
